import Mathlib

/-!
Verification development for the hex-tile texture pipeline
(grid tile extraction, background matte cleaning, frame thinning).

The raster algorithms are embedded shallowly:

* pixels carry four natural-number channels (8-bit samples);
* a buffer is a width, a height and a total pixel function (reads
  outside the canvas are never semantically relevant; operations that
  need zero padding test bounds explicitly);
* the float32 arithmetic of the source is modelled exactly: on 8-bit
  samples every comparison it performs is integer-expressible
  ((r+g+b)/3 >= t is 3*t <= r+g+b since the sums stay below 2^24 where
  float32 is exact and the quotient cannot round across an integer
  threshold at these magnitudes), except in the frame thinner whose
  genuinely real-valued resampling is modelled over the reals.
-/

namespace Spirit

/-- One RGBA sample; channels conceptually 8-bit (0..255). -/
structure Pix where
  r : ℕ
  g : ℕ
  b : ℕ
  a : ℕ
deriving DecidableEq, Repr

/-- The fully transparent black pixel (0,0,0,0). -/
def zeroPix : Pix := ⟨0, 0, 0, 0⟩

/-- A raster buffer: width, height, pixel function indexed `px y x`
    (row y from the top, column x from the left). -/
structure Img where
  w : ℕ
  h : ℕ
  px : ℕ → ℕ → Pix

/-- Pointwise equality of buffers on the canvas, dimensions included. -/
def ImgEq (A B : Img) : Prop :=
  A.w = B.w ∧ A.h = B.h ∧
    ∀ y, y < A.h → ∀ x, x < A.w → A.px y x = B.px y x

instance (A B : Img) : Decidable (ImgEq A B) := by
  unfold ImgEq; infer_instance

theorem ImgEq.refl (A : Img) : ImgEq A A := ⟨rfl, rfl, fun _ _ _ _ => rfl⟩

theorem ImgEq.symm {A B : Img} (h : ImgEq A B) : ImgEq B A :=
  ⟨h.1.symm, h.2.1.symm, fun y hy x hx =>
    (h.2.2 y (h.2.1 ▸ hy) x (h.1 ▸ hx)).symm⟩

theorem ImgEq.trans {A B C : Img} (h₁ : ImgEq A B) (h₂ : ImgEq B C) :
    ImgEq A C :=
  ⟨h₁.1.trans h₂.1, h₁.2.1.trans h₂.2.1, fun y hy x hx =>
    (h₁.2.2 y hy x hx).trans (h₂.2.2 y (h₁.2.1 ▸ hy) x (h₁.1 ▸ hx))⟩

/-! ## BackgroundMatteCleaner (clean_hex_tile) -/

/-- Sum of the colour channels.  The source compares the float average
    (r+g+b)/3; on 8-bit samples that is exactly the sum compared against
    three times the threshold. -/
def brightSum (p : Pix) : ℕ := p.r + p.g + p.b

/-- Matte-removal test of clean_hex_tile (and process_texture_image):
    (is_white or is_very_light) and alpha above 200. -/
def should_be_transparent (threshold tolerance : ℕ) (p : Pix) : Prop :=
  ((threshold - tolerance ≤ p.r ∧ threshold - tolerance ≤ p.g ∧
      threshold - tolerance ≤ p.b) ∨ 3 * threshold ≤ brightSum p) ∧
    200 < p.a

instance (threshold tolerance : ℕ) (p : Pix) :
    Decidable (should_be_transparent threshold tolerance p) := by
  unfold should_be_transparent; infer_instance

/-- Step A of clean_hex_tile: force the alpha of matched pixels to 0,
    leave everything else untouched. -/
def matte (threshold tolerance : ℕ) (c : Img) : Img :=
  { c with px := fun y x =>
      let p := c.px y x
      if should_be_transparent threshold tolerance p then
        { p with a := 0 } else p }

/-- Alpha read with np.pad zero-extension at the canvas border. -/
def aPad (c : Img) (y x : ℤ) : ℕ :=
  if 0 ≤ y ∧ y < c.h ∧ 0 ≤ x ∧ x < c.w then (c.px y.toNat x.toNat).a else 0

/-- Number of the four axis-aligned neighbours whose alpha is below 50
    (zero-padding outside the canvas). -/
def neighbors_transparent (c : Img) (y x : ℕ) : ℕ :=
  (if aPad c ((y : ℤ) - 1) x < 50 then 1 else 0) +
  (if aPad c ((y : ℤ) + 1) x < 50 then 1 else 0) +
  (if aPad c y ((x : ℤ) - 1) < 50 then 1 else 0) +
  (if aPad c y ((x : ℤ) + 1) < 50 then 1 else 0)

/-- Damping condition is_light_edge of one halo pass: some transparent
    neighbour, bright colour (average above 200), positive alpha. -/
def is_light_edge (c : Img) (y x : ℕ) : Prop :=
  0 < neighbors_transparent c y x ∧ 600 < brightSum (c.px y x) ∧
    0 < (c.px y x).a

instance (c : Img) (y x : ℕ) : Decidable (is_light_edge c y x) := by
  unfold is_light_edge; infer_instance

/-- One halo-suppression pass (Step B) with the numpy vectorised
    semantics of the source: every neighbour count is taken from the
    pass input `c`, and matched pixels get alpha clamped to 100. -/
def halo (c : Img) : Img :=
  { c with px := fun y x =>
      let p := c.px y x
      if is_light_edge c y x then { p with a := min p.a 100 } else p }

/-- Row-major list of the canvas positions (row, column). -/
def raster (c : Img) : List (ℕ × ℕ) :=
  (List.range c.h).flatMap (fun y => (List.range c.w).map (fun x => (y, x)))

/-- Replace a single pixel of a buffer. -/
def updPx (c : Img) (y x : ℕ) (p : Pix) : Img :=
  { c with px := fun v u => if v = y ∧ u = x then p else c.px v u }

/-- One sequential damping update at one position, reading the running
    buffer (mutated-so-far state). -/
def haloStep (c : Img) : ℕ × ℕ → Img
  | (y, x) =>
    if is_light_edge c y x then
      updPx c y x { c.px y x with a := min (c.px y x).a 100 }
    else c

/-- One halo pass under running (sequentially mutating) semantics, the
    reading of Step B in which each pixel's neighbour count sees the
    alpha array as already mutated earlier within the same pass, in
    row-major order. -/
def haloRun (c : Img) : Img := (raster c).foldl haloStep c

/-- Content test of a row: some pixel of the row has alpha above t. -/
def rowHas (t : ℕ) (c : Img) (y : ℕ) : Prop :=
  ∃ x, x < c.w ∧ t < (c.px y x).a

/-- Content test of a column: some pixel of the column has alpha above t. -/
def colHas (t : ℕ) (c : Img) (x : ℕ) : Prop :=
  ∃ y, y < c.h ∧ t < (c.px y x).a

instance (t : ℕ) (c : Img) : DecidablePred (rowHas t c) := fun _ => by
  unfold rowHas; infer_instance

instance (t : ℕ) (c : Img) : DecidablePred (colHas t c) := fun _ => by
  unfold colHas; infer_instance

/-- Rows of the canvas containing a pixel with alpha above t. -/
def contentRows (t : ℕ) (c : Img) : Finset ℕ :=
  (Finset.range c.h).filter (rowHas t c)

/-- Columns of the canvas containing a pixel with alpha above t. -/
def contentCols (t : ℕ) (c : Img) : Finset ℕ :=
  (Finset.range c.w).filter (colHas t c)

/-- Bounding box (x_min, y_min, x_max_exclusive, y_max_exclusive) of the
    pixels with alpha above t; none when no such pixel exists.  With
    t = 0 this models PIL Image.getbbox on an RGBA image (documented
    alpha-only behaviour: trim the fully transparent pixels). -/
def bboxT (t : ℕ) (c : Img) : Option (ℕ × ℕ × ℕ × ℕ) :=
  if hr : (contentRows t c).Nonempty then
    if hc : (contentCols t c).Nonempty then
      some ((contentCols t c).min' hc, (contentRows t c).min' hr,
            (contentCols t c).max' hc + 1, (contentRows t c).max' hr + 1)
    else none
  else none

/-- Crop to the box [x0, x1) × [y0, y1) (PIL Image.crop). -/
def crop (c : Img) (x0 y0 x1 y1 : ℕ) : Img :=
  { w := x1 - x0, h := y1 - y0, px := fun y x => c.px (y0 + y) (x0 + x) }

/-- Paste onto a fresh transparent canvas 4 pixels larger in each
    dimension, at offset (2,2). -/
def pad2 (c : Img) : Img :=
  { w := c.w + 4, h := c.h + 4,
    px := fun y x =>
      if 2 ≤ y ∧ y < c.h + 2 ∧ 2 ≤ x ∧ x < c.w + 2 then
        c.px (y - 2) (x - 2)
      else zeroPix }

/-- The cleaned buffer: matte removal followed by two halo passes. -/
def cleanedBuf (threshold tolerance : ℕ) (c : Img) : Img :=
  halo (halo (matte threshold tolerance c))

/-- clean_hex_tile: matte removal, two halo passes, crop to the alpha
    bounding box, 2-pixel transparent padding ring.  When the box is
    empty the cleaned buffer is returned as is, tagged empty (`true` is
    the "vacia" outcome). -/
def clean_hex_tile (threshold tolerance : ℕ) (c : Img) : Img × Bool :=
  let cl := cleanedBuf threshold tolerance c
  match bboxT 0 cl with
  | some (x0, y0, x1, y1) => (pad2 (crop cl x0 y0 x1 y1), false)
  | none => (cl, true)

/-! ## GridTileExtractor (extract_hex_tiles, process_texture_image) -/

/-- One grid cell of a buffer: the tw x th region at grid position
    (row, col). -/
def cellImg (c : Img) (tw th row col : ℕ) : Img :=
  { w := tw, h := th,
    px := fun y x => c.px (row * th + y) (col * tw + x) }

/-- The 2x2 grid positions in visitation order (row 0 left to right,
    then row 1), as produced by the nested row/col loops. -/
def gridCells : List (ℕ × ℕ) :=
  (List.range 2).flatMap fun row => (List.range 2).map fun col => (row, col)

/-- One loop iteration of extract_hex_tiles: a cell with no pixel of
    alpha above 20 is skipped entirely (no tile, no index); otherwise
    the cell is cropped to its alpha>20 bounding box and emitted with
    index tile_index+1, and the counter advances.  (The source tests
    cell emptiness with np.any(tile_alpha > 20) before computing the
    per-row/per-column content vectors; that test is equivalent to the
    alpha>20 bounding box being empty, and the second emptiness check
    on the content vectors is unreachable.) -/
def extractStep (c : Img) (acc : List (ℕ × Img) × ℕ) (rc : ℕ × ℕ) :
    List (ℕ × Img) × ℕ :=
  match bboxT 20 (cellImg c (c.w / 2) (c.h / 2) rc.1 rc.2) with
  | some (x0, y0, x1, y1) =>
    (acc.1 ++ [(acc.2 + 1,
      crop (cellImg c (c.w / 2) (c.h / 2) rc.1 rc.2) x0 y0 x1 y1)],
      acc.2 + 1)
  | none => acc

/-- extract_hex_tiles: if no pixel of the whole canvas has alpha above
    20, return the empty sequence; otherwise visit the 2x2 cells in
    row-major order, skipping empty cells without consuming an index,
    and emit each surviving cell tight-cropped to its content. -/
def extract_hex_tiles (c : Img) : List (ℕ × Img) :=
  if ∃ y, y < c.h ∧ ∃ x, x < c.w ∧ 20 < (c.px y x).a then
    (gridCells.foldl (extractStep c) ([], 0)).1
  else []

/-- One loop iteration of process_texture_image: the cell is cleaned
    (matte removal, two halo passes); if the alpha bounding box of the
    cleaned cell is nonempty the padded crop is emitted with index
    tile_index+1; in both branches tile_index advances (the increment
    sits at the end of the loop body, outside the emptiness branch). -/
def texStep (threshold tolerance : ℕ) (c : Img)
    (acc : List (ℕ × Img) × ℕ) (rc : ℕ × ℕ) : List (ℕ × Img) × ℕ :=
  match bboxT 0 (cleanedBuf threshold tolerance
      (cellImg c (c.w / 2) (c.h / 2) rc.1 rc.2)) with
  | some (x0, y0, x1, y1) =>
    (acc.1 ++ [(acc.2 + 1,
      pad2 (crop (cleanedBuf threshold tolerance
        (cellImg c (c.w / 2) (c.h / 2) rc.1 rc.2)) x0 y0 x1 y1))],
      acc.2 + 1)
  | none => (acc.1, acc.2 + 1)

/-- process_texture_image: visit the 2x2 cells in row-major order,
    clean each cell and emit the padded crop of the nonempty ones. -/
def process_texture_image (threshold tolerance : ℕ) (c : Img) :
    List (ℕ × Img) :=
  (gridCells.foldl (texStep threshold tolerance c) ([], 0)).1

/-- Whether a cell of process_texture_image emits a tile: its cleaned
    buffer has a nonempty alpha bounding box. -/
def cellEmits (threshold tolerance : ℕ) (c : Img) (rc : ℕ × ℕ) : Bool :=
  (bboxT 0 (cleanedBuf threshold tolerance
    (cellImg c (c.w / 2) (c.h / 2) rc.1 rc.2))).isSome

/-- Indices carried by the emitted tiles when every visited cell
    consumes an index: the cell at overall position i (0-based,
    counting skipped cells) emits index k+i+1. -/
def emittedIdx (E : (ℕ × ℕ) → Bool) : List (ℕ × ℕ) → ℕ → List ℕ
  | [], _ => []
  | q :: qs, k =>
    if E q then (k + 1) :: emittedIdx E qs (k + 1)
    else emittedIdx E qs (k + 1)

/-! ## FrameThinner (thin_hex_frame)

The radial remap is genuinely real-valued (square roots, fractional
sampling positions), so this part of the embedding idealises the
source's float arithmetic over the reals; the distance-transform
values, whose squares are integers, are kept computable. -/

/-- Channel accessor: 0 = red, 1 = green, 2 = blue, 3 = alpha. -/
def getC (p : Pix) : ℕ → ℕ
  | 0 => p.r
  | 1 => p.g
  | 2 => p.b
  | _ => p.a

/-- Squared Euclidean distance between two canvas positions. -/
def sqDist (i j y x : ℕ) : ℕ :=
  (((i : ℤ) - y) ^ 2 + ((j : ℤ) - x) ^ 2).toNat

/-- The background cells (alpha zero, i.e. outside frame_mask) of the
    canvas, in row-major order. -/
def bgCells (c : Img) : List (ℕ × ℕ) :=
  (raster c).filter fun q => decide ((c.px q.1 q.2).a = 0)

/-- Squared value of the Euclidean distance transform
    (scipy.ndimage.distance_transform_edt) of the foreground mask: the
    squared distance to the nearest background cell of the array.
    Modelled from the scipy documentation; when no background cell
    exists the distances are unbounded, and any default larger than
    every in-canvas distance is faithful — we use h*h + w*w + 1. -/
def edtSq (c : Img) (i j : ℕ) : ℕ :=
  (((bgCells c).map fun q => sqDist i j q.1 q.2).min?).getD
    (c.h * c.h + c.w * c.w + 1)

/-- Euclidean distance-transform value (depth into the shape). -/
noncomputable def dfe (c : Img) (i j : ℕ) : ℝ := Real.sqrt (edtSq c i j)

/-- Canvas centre row coordinate (height / 2). -/
noncomputable def cY (c : Img) : ℝ := (c.h : ℝ) / 2

/-- Canvas centre column coordinate (width / 2). -/
noncomputable def cX (c : Img) : ℝ := (c.w : ℝ) / 2

/-- Row component of the centre-to-pixel vector. -/
noncomputable def dY (c : Img) (i : ℕ) : ℝ := (i : ℝ) - cY c

/-- Column component of the centre-to-pixel vector. -/
noncomputable def dX (c : Img) (j : ℕ) : ℝ := (j : ℝ) - cX c

/-- Distance from the pixel to the canvas centre,
    sqrt(dx*dx + dy*dy). -/
noncomputable def distC (c : Img) (i j : ℕ) : ℝ :=
  Real.sqrt (dX c j * dX c j + dY c i * dY c i)

/-- Inward pull of a border-band pixel:
    shrink * (1 - dfe / shrink). -/
noncomputable def displacement (c : Img) (s i j : ℕ) : ℝ :=
  (s : ℝ) * (1 - dfe c i j / (s : ℝ))

open Classical in
/-- Source sampling row: centre + dy scaled inward, with the source's
    guard on a zero distance to centre. -/
noncomputable def srcY (c : Img) (s i j : ℕ) : ℝ :=
  cY c + (if 0 < distC c i j then
    dY c i * (1 - displacement c s i j / distC c i j) else dY c i)

open Classical in
/-- Source sampling column, as srcY. -/
noncomputable def srcX (c : Img) (s i j : ℕ) : ℝ :=
  cX c + (if 0 < distC c i j then
    dX c j * (1 - displacement c s i j / distC c i j) else dX c j)

/-- Clip to [0, 255] and cast to an 8-bit sample (np.clip followed by
    astype(np.uint8); the clipped value is nonnegative, so the cast's
    truncation is the floor). -/
noncomputable def toU8 (v : ℝ) : ℕ := (⌊max 0 (min 255 v)⌋).toNat

/-- Bilinear interpolation of channel k of the input at the fractional
    position (sy, sx); int() truncation of a nonnegative position gives
    the floor, and the opposite corner is one pixel further. -/
noncomputable def bilin (c : Img) (sy sx : ℝ) (k : ℕ) : ℝ :=
  (getC (c.px (⌊sy⌋).toNat (⌊sx⌋).toNat) k : ℝ) *
      (1 - (sy - ((⌊sy⌋).toNat : ℝ))) * (1 - (sx - ((⌊sx⌋).toNat : ℝ))) +
  (getC (c.px (⌊sy⌋).toNat ((⌊sx⌋).toNat + 1)) k : ℝ) *
      (1 - (sy - ((⌊sy⌋).toNat : ℝ))) * (sx - ((⌊sx⌋).toNat : ℝ)) +
  (getC (c.px ((⌊sy⌋).toNat + 1) (⌊sx⌋).toNat) k : ℝ) *
      (sy - ((⌊sy⌋).toNat : ℝ)) * (1 - (sx - ((⌊sx⌋).toNat : ℝ))) +
  (getC (c.px ((⌊sy⌋).toNat + 1) ((⌊sx⌋).toNat + 1)) k : ℝ) *
      (sy - ((⌊sy⌋).toNat : ℝ)) * (sx - ((⌊sx⌋).toNat : ℝ))

/-- The quantised bilinear sample at a source position. -/
noncomputable def bilinPix (c : Img) (sy sx : ℝ) : Pix :=
  ⟨toU8 (bilin c sy sx 0), toU8 (bilin c sy sx 1),
    toU8 (bilin c sy sx 2), toU8 (bilin c sy sx 3)⟩

/-- A copied pixel after the final clip-and-cast of the output array. -/
noncomputable def clipPix (p : Pix) : Pix :=
  ⟨toU8 (p.r : ℝ), toU8 (p.g : ℝ), toU8 (p.b : ℝ), toU8 (p.a : ℝ)⟩

open Classical in
/-- Output pixel of thin_hex_frame: background pixels stay at the
    zeros of np.zeros_like; a foreground pixel at the canvas centre or
    with depth above the shrink amount is copied; a border-band pixel
    is bilinearly resampled at the inward source position when that
    position lies in [0, h-1) x [0, w-1), else left fully transparent.
    (The source also computes a distance_ratio that it never uses; the
    dead assignment is omitted.) -/
noncomputable def thinPixel (c : Img) (s i j : ℕ) : Pix :=
  if 0 < (c.px i j).a then
    if distC c i j < 1 / 1000000 then clipPix (c.px i j)
    else if (s : ℝ) < dfe c i j then clipPix (c.px i j)
    else if 0 ≤ srcY c s i j ∧ srcY c s i j < (c.h : ℝ) - 1 ∧
        0 ≤ srcX c s i j ∧ srcX c s i j < (c.w : ℝ) - 1 then
      bilinPix c (srcY c s i j) (srcX c s i j)
    else zeroPix
  else zeroPix

/-- thin_hex_frame: dimension-preserving per-pixel radial remap. -/
noncomputable def thin_hex_frame (c : Img) (s : ℕ) : Img :=
  { w := c.w, h := c.h, px := fun i j => thinPixel c s i j }

/-- All channels within the 8-bit range on the canvas (the data model
    of a decoded RGBA raster). -/
def Valid8 (c : Img) : Prop :=
  ∀ y x, y < c.h → x < c.w →
    (c.px y x).r ≤ 255 ∧ (c.px y x).g ≤ 255 ∧
    (c.px y x).b ≤ 255 ∧ (c.px y x).a ≤ 255

/-! ## Concrete inputs used by witnesses and counterexamples -/

/-- A 1x1 canvas holding a single opaque pure-white pixel. -/
def whiteImg : Img := ⟨1, 1, fun _ _ => ⟨255, 255, 255, 255⟩⟩

/-- A 1x1 fully transparent canvas. -/
def clearImg : Img := ⟨1, 1, fun _ _ => ⟨0, 0, 0, 0⟩⟩

/-- A 1x1 canvas holding a single opaque mid-grey pixel (not near
    white, not bright). -/
def greyImg : Img := ⟨1, 1, fun _ _ => ⟨50, 60, 70, 255⟩⟩

/-- A 2x2 canvas whose top-right cell holds an opaque grey pixel and
    whose other three cells are fully transparent (cells are 1x1 under
    the 2x2 grid split). -/
def tex2Img : Img :=
  ⟨2, 2, fun y x =>
    if y = 0 ∧ x = 1 then ⟨50, 60, 70, 255⟩ else ⟨0, 0, 0, 0⟩⟩

/-- A 1x1 canvas whose single pixel is transparent but carries a
    nonzero red channel. -/
def bgColorImg : Img := ⟨1, 1, fun _ _ => ⟨100, 0, 0, 0⟩⟩

/-- A 2x2 canvas with a single opaque pixel at the top-right corner
    (row 0, column 1); its distance-transform depth is 1. -/
def b4 : Img :=
  ⟨2, 2, fun y x =>
    if y = 0 ∧ x = 1 then ⟨10, 20, 30, 255⟩ else ⟨0, 0, 0, 0⟩⟩

/-! ## Theorems: general pixel-level lemmas -/

theorem matte_w (threshold tolerance : ℕ) (c : Img) :
    (matte threshold tolerance c).w = c.w := rfl

theorem matte_h (threshold tolerance : ℕ) (c : Img) :
    (matte threshold tolerance c).h = c.h := rfl

theorem matte_px (threshold tolerance : ℕ) (c : Img) (y x : ℕ) :
    (matte threshold tolerance c).px y x =
      if should_be_transparent threshold tolerance (c.px y x) then
        { c.px y x with a := 0 } else c.px y x := rfl

theorem halo_w (c : Img) : (halo c).w = c.w := rfl

theorem halo_h (c : Img) : (halo c).h = c.h := rfl

theorem halo_px (c : Img) (y x : ℕ) :
    (halo c).px y x =
      if is_light_edge c y x then
        { c.px y x with a := min (c.px y x).a 100 } else c.px y x := rfl

theorem matte_r (threshold tolerance : ℕ) (c : Img) (y x : ℕ) :
    ((matte threshold tolerance c).px y x).r = (c.px y x).r := by
  rw [matte_px]; split <;> rfl

theorem matte_g (threshold tolerance : ℕ) (c : Img) (y x : ℕ) :
    ((matte threshold tolerance c).px y x).g = (c.px y x).g := by
  rw [matte_px]; split <;> rfl

theorem matte_b (threshold tolerance : ℕ) (c : Img) (y x : ℕ) :
    ((matte threshold tolerance c).px y x).b = (c.px y x).b := by
  rw [matte_px]; split <;> rfl

theorem matte_a_le (threshold tolerance : ℕ) (c : Img) (y x : ℕ) :
    ((matte threshold tolerance c).px y x).a ≤ (c.px y x).a := by
  rw [matte_px]; split
  · exact Nat.zero_le _
  · exact le_rfl

theorem halo_r (c : Img) (y x : ℕ) : ((halo c).px y x).r = (c.px y x).r := by
  rw [halo_px]; split <;> rfl

theorem halo_g (c : Img) (y x : ℕ) : ((halo c).px y x).g = (c.px y x).g := by
  rw [halo_px]; split <;> rfl

theorem halo_b (c : Img) (y x : ℕ) : ((halo c).px y x).b = (c.px y x).b := by
  rw [halo_px]; split <;> rfl

theorem halo_a_le (c : Img) (y x : ℕ) :
    ((halo c).px y x).a ≤ (c.px y x).a := by
  rw [halo_px]; split
  · exact min_le_left _ _
  · exact le_rfl

/-- Damping never moves an alpha across the transparency threshold 50. -/
theorem halo_a_lt50 (c : Img) (y x : ℕ) :
    (((halo c).px y x).a < 50 ↔ (c.px y x).a < 50) := by
  rw [halo_px]; split
  · show min _ 100 < 50 ↔ _
    omega
  · exact Iff.rfl

/-- Damping never moves an alpha across zero. -/
theorem halo_a_pos (c : Img) (y x : ℕ) :
    (0 < ((halo c).px y x).a ↔ 0 < (c.px y x).a) := by
  rw [halo_px]; split
  · show 0 < min _ 100 ↔ _
    omega
  · exact Iff.rfl

theorem cleanedBuf_w (threshold tolerance : ℕ) (c : Img) :
    (cleanedBuf threshold tolerance c).w = c.w := rfl

theorem cleanedBuf_h (threshold tolerance : ℕ) (c : Img) :
    (cleanedBuf threshold tolerance c).h = c.h := rfl

theorem cleanedBuf_r (threshold tolerance : ℕ) (c : Img) (y x : ℕ) :
    ((cleanedBuf threshold tolerance c).px y x).r = (c.px y x).r := by
  unfold cleanedBuf; rw [halo_r, halo_r, matte_r]

theorem cleanedBuf_g (threshold tolerance : ℕ) (c : Img) (y x : ℕ) :
    ((cleanedBuf threshold tolerance c).px y x).g = (c.px y x).g := by
  unfold cleanedBuf; rw [halo_g, halo_g, matte_g]

theorem cleanedBuf_b (threshold tolerance : ℕ) (c : Img) (y x : ℕ) :
    ((cleanedBuf threshold tolerance c).px y x).b = (c.px y x).b := by
  unfold cleanedBuf; rw [halo_b, halo_b, matte_b]

theorem cleanedBuf_a_le (threshold tolerance : ℕ) (c : Img) (y x : ℕ) :
    ((cleanedBuf threshold tolerance c).px y x).a ≤ (c.px y x).a := by
  unfold cleanedBuf
  exact le_trans (halo_a_le _ y x)
    (le_trans (halo_a_le _ y x) (matte_a_le _ _ _ y x))

/-! ## Theorems: bounding-box characterisation -/

theorem mem_contentRows {t : ℕ} {c : Img} {y : ℕ} :
    y ∈ contentRows t c ↔ y < c.h ∧ rowHas t c y := by
  simp [contentRows, Finset.mem_filter, Finset.mem_range]

theorem mem_contentCols {t : ℕ} {c : Img} {x : ℕ} :
    x ∈ contentCols t c ↔ x < c.w ∧ colHas t c x := by
  simp [contentCols, Finset.mem_filter, Finset.mem_range]

theorem contentRows_nonempty_iff {t : ℕ} {c : Img} :
    (contentRows t c).Nonempty ↔
      ∃ y, y < c.h ∧ ∃ x, x < c.w ∧ t < (c.px y x).a := by
  constructor
  · rintro ⟨y, hy⟩
    rw [mem_contentRows] at hy
    obtain ⟨x, hx, ha⟩ := hy.2
    exact ⟨y, hy.1, x, hx, ha⟩
  · rintro ⟨y, hy, x, hx, ha⟩
    exact ⟨y, mem_contentRows.2 ⟨hy, x, hx, ha⟩⟩

theorem contentCols_nonempty_iff {t : ℕ} {c : Img} :
    (contentCols t c).Nonempty ↔
      ∃ y, y < c.h ∧ ∃ x, x < c.w ∧ t < (c.px y x).a := by
  constructor
  · rintro ⟨x, hx⟩
    rw [mem_contentCols] at hx
    obtain ⟨y, hy, ha⟩ := hx.2
    exact ⟨y, hy, x, hx.1, ha⟩
  · rintro ⟨y, hy, x, hx, ha⟩
    exact ⟨x, mem_contentCols.2 ⟨hx, y, hy, ha⟩⟩

/-- Elimination for a nonempty bounding box: bounds inside the canvas,
    enclosure of every content pixel, and tightness (each of the two
    extreme rows and columns really contains content). -/
theorem bboxT_some {t : ℕ} {c : Img} {x0 y0 x1 y1 : ℕ}
    (hb : bboxT t c = some (x0, y0, x1, y1)) :
    (y0 < y1 ∧ y1 ≤ c.h ∧ x0 < x1 ∧ x1 ≤ c.w) ∧
    (∀ y x, y < c.h → x < c.w → t < (c.px y x).a →
      x0 ≤ x ∧ x < x1 ∧ y0 ≤ y ∧ y < y1) ∧
    (rowHas t c y0 ∧ rowHas t c (y1 - 1) ∧
      colHas t c x0 ∧ colHas t c (x1 - 1)) := by
  unfold bboxT at hb
  by_cases hr : (contentRows t c).Nonempty
  · rw [dif_pos hr] at hb
    by_cases hc : (contentCols t c).Nonempty
    · rw [dif_pos hc] at hb
      simp only [Option.some.injEq, Prod.mk.injEq] at hb
      obtain ⟨ex0, ey0, ex1, ey1⟩ := hb
      subst ex0; subst ey0; subst ex1; subst ey1
      have hy0mem := mem_contentRows.1 ((contentRows t c).min'_mem hr)
      have hy1mem := mem_contentRows.1 ((contentRows t c).max'_mem hr)
      have hx0mem := mem_contentCols.1 ((contentCols t c).min'_mem hc)
      have hx1mem := mem_contentCols.1 ((contentCols t c).max'_mem hc)
      refine ⟨⟨?_, ?_, ?_, ?_⟩, ?_, ?_, ?_, ?_, ?_⟩
      · exact Nat.lt_succ_of_le (Finset.min'_le _ _ ((contentRows t c).max'_mem hr))
      · exact Nat.succ_le_of_lt hy1mem.1
      · exact Nat.lt_succ_of_le (Finset.min'_le _ _ ((contentCols t c).max'_mem hc))
      · exact Nat.succ_le_of_lt hx1mem.1
      · intro y x hy hx ha
        have hyr : y ∈ contentRows t c := mem_contentRows.2 ⟨hy, x, hx, ha⟩
        have hxc : x ∈ contentCols t c := mem_contentCols.2 ⟨hx, y, hy, ha⟩
        exact ⟨Finset.min'_le _ _ hxc, Nat.lt_succ_of_le (Finset.le_max' _ _ hxc),
          Finset.min'_le _ _ hyr, Nat.lt_succ_of_le (Finset.le_max' _ _ hyr)⟩
      · exact hy0mem.2
      · simpa using hy1mem.2
      · exact hx0mem.2
      · simpa using hx1mem.2
    · rw [dif_neg hc] at hb; exact absurd hb (Option.some_ne_none _).symm
  · rw [dif_neg hr] at hb; exact absurd hb (Option.some_ne_none _).symm

/-- The bounding box is empty exactly when no canvas pixel has alpha
    above the threshold. -/
theorem bboxT_none_iff {t : ℕ} {c : Img} :
    bboxT t c = none ↔
      ∀ y x, y < c.h → x < c.w → (c.px y x).a ≤ t := by
  constructor
  · intro hb y x hy hx
    by_contra ha
    push_neg at ha
    have hr : (contentRows t c).Nonempty :=
      contentRows_nonempty_iff.2 ⟨y, hy, x, hx, ha⟩
    have hc : (contentCols t c).Nonempty :=
      contentCols_nonempty_iff.2 ⟨y, hy, x, hx, ha⟩
    unfold bboxT at hb
    rw [dif_pos hr, dif_pos hc] at hb
    exact Option.some_ne_none _ hb
  · intro hall
    have hr : ¬ (contentRows t c).Nonempty := by
      intro hr
      obtain ⟨y, hy, x, hx, ha⟩ := contentRows_nonempty_iff.1 hr
      exact absurd (hall y x hy hx) (not_le.2 ha)
    unfold bboxT
    rw [dif_neg hr]

/-! ## Claim C8 — matte-removal rule -/

/-- C8: with whiteThreshold 250 and tolerance 10, the matte step forces
    a pixel's alpha to 0 iff ((R ≥ 240 and G ≥ 240 and B ≥ 240) or
    R+G+B ≥ 750, i.e. (R+G+B)/3 ≥ 250) and its alpha exceeds 200; every
    other pixel passes through entirely unchanged; in particular an
    opaque pure-white pixel becomes alpha 0. -/
theorem claim_C8 (c : Img) (y x : ℕ) :
    ((((240 ≤ (c.px y x).r ∧ 240 ≤ (c.px y x).g ∧ 240 ≤ (c.px y x).b) ∨
        750 ≤ (c.px y x).r + (c.px y x).g + (c.px y x).b) ∧
        200 < (c.px y x).a) →
      ((matte 250 10 c).px y x).a = 0) ∧
    (¬ (((240 ≤ (c.px y x).r ∧ 240 ≤ (c.px y x).g ∧ 240 ≤ (c.px y x).b) ∨
        750 ≤ (c.px y x).r + (c.px y x).g + (c.px y x).b) ∧
        200 < (c.px y x).a) →
      (matte 250 10 c).px y x = c.px y x) ∧
    (c.px y x = ⟨255, 255, 255, 255⟩ → ((matte 250 10 c).px y x).a = 0) := by
  have hiff : should_be_transparent 250 10 (c.px y x) ↔
      (((240 ≤ (c.px y x).r ∧ 240 ≤ (c.px y x).g ∧ 240 ≤ (c.px y x).b) ∨
        750 ≤ (c.px y x).r + (c.px y x).g + (c.px y x).b) ∧
        200 < (c.px y x).a) := by
    unfold should_be_transparent brightSum
    norm_num
  refine ⟨?_, ?_, ?_⟩
  · intro h
    rw [matte_px, if_pos (hiff.2 h)]
  · intro h
    rw [matte_px, if_neg (fun hh => h (hiff.1 hh))]
  · intro h
    rw [matte_px, if_pos]
    rw [hiff, h]
    norm_num

/-- Witness for C8 at a concrete pixel: the single opaque white pixel
    of whiteImg becomes alpha 0. -/
theorem claim_C8_witness : ((matte 250 10 whiteImg).px 0 0).a = 0 :=
  (claim_C8 whiteImg 0 0).2.2 rfl

/-! ## Claim C6 — empty bounding-box outcome -/

/-- Counterexample to C6 as stated: on the 1x1 opaque white canvas the
    post-cleaning bounding box is empty, but the returned buffer is not
    the original input — its pixel has alpha 0 where the input had 255
    (the code saves the cleaned buffer, not the original). -/
theorem claim_C6_counterexample :
    (clean_hex_tile 250 10 whiteImg).2 = true ∧
    (clean_hex_tile 250 10 whiteImg).1.px 0 0 ≠ whiteImg.px 0 0 := by
  decide

/-- C6 amended: when the post-cleaning bounding box is empty,
    clean_hex_tile returns the cleaned buffer uncropped, tagged as the
    empty case: same dimensions as the input, all colour channels
    identical to the input's, and alpha never above the input's. -/
theorem claim_C6 (c : Img)
    (hb : bboxT 0 (cleanedBuf 250 10 c) = none) :
    (clean_hex_tile 250 10 c).2 = true ∧
    (clean_hex_tile 250 10 c).1.w = c.w ∧
    (clean_hex_tile 250 10 c).1.h = c.h ∧
    ∀ y, y < c.h → ∀ x, x < c.w →
      ((clean_hex_tile 250 10 c).1.px y x).r = (c.px y x).r ∧
      ((clean_hex_tile 250 10 c).1.px y x).g = (c.px y x).g ∧
      ((clean_hex_tile 250 10 c).1.px y x).b = (c.px y x).b ∧
      ((clean_hex_tile 250 10 c).1.px y x).a ≤ (c.px y x).a := by
  simp only [clean_hex_tile, hb]
  exact ⟨trivial, rfl, rfl, fun y _ x _ =>
    ⟨cleanedBuf_r 250 10 c y x, cleanedBuf_g 250 10 c y x,
      cleanedBuf_b 250 10 c y x, cleanedBuf_a_le 250 10 c y x⟩⟩

/-- Witness for the amended C6 on the all-transparent 1x1 canvas, whose
    cleaned bounding box is empty. -/
theorem claim_C6_witness :
    (clean_hex_tile 250 10 clearImg).2 = true ∧
    (clean_hex_tile 250 10 clearImg).1.w = clearImg.w ∧
    (clean_hex_tile 250 10 clearImg).1.h = clearImg.h ∧
    ∀ y, y < clearImg.h → ∀ x, x < clearImg.w →
      ((clean_hex_tile 250 10 clearImg).1.px y x).r = (clearImg.px y x).r ∧
      ((clean_hex_tile 250 10 clearImg).1.px y x).g = (clearImg.px y x).g ∧
      ((clean_hex_tile 250 10 clearImg).1.px y x).b = (clearImg.px y x).b ∧
      ((clean_hex_tile 250 10 clearImg).1.px y x).a ≤ (clearImg.px y x).a :=
  claim_C6 clearImg (by decide)

/-! ## Claims C1 and C10 — crop step and frame effect -/

/-- On the nonempty branch, clean_hex_tile pads the cleaned buffer
    cropped to the bounding box and tags the result non-empty. -/
theorem clean_some_px (threshold tolerance : ℕ) (c : Img)
    (x0 y0 x1 y1 : ℕ)
    (hb : bboxT 0 (cleanedBuf threshold tolerance c) =
      some (x0, y0, x1, y1)) :
    (clean_hex_tile threshold tolerance c).1 =
      pad2 (crop (cleanedBuf threshold tolerance c) x0 y0 x1 y1) ∧
    (clean_hex_tile threshold tolerance c).2 = false := by
  simp only [clean_hex_tile, hb]
  exact ⟨trivial, trivial⟩

/-- Pixels of the 2-inset content region of the padded crop are exactly
    the cropped buffer's pixels under the crop translation. -/
theorem pad2_crop_px (cl : Img) (x0 y0 x1 y1 dy dx : ℕ)
    (hdy : dy < y1 - y0) (hdx : dx < x1 - x0) :
    (pad2 (crop cl x0 y0 x1 y1)).px (dy + 2) (dx + 2) =
      cl.px (y0 + dy) (x0 + dx) := by
  show (if 2 ≤ dy + 2 ∧ dy + 2 < (y1 - y0) + 2 ∧ 2 ≤ dx + 2 ∧
      dx + 2 < (x1 - x0) + 2 then
      (crop cl x0 y0 x1 y1).px (dy + 2 - 2) (dx + 2 - 2) else zeroPix) = _
  rw [if_pos (by omega)]
  rfl

/-- C1: when the cleaned buffer has content, the crop box of
    clean_hex_tile is the minimal rectangle enclosing exactly the
    pixels with positive alpha in the cleaned buffer, the output
    content (at the 2-pixel inset) is the cleaned buffer cropped to
    that box, and a zero-alpha pixel outside the box (whatever its
    colour channels) is never the source of any content pixel. -/
theorem claim_C1 (c : Img) (x0 y0 x1 y1 : ℕ)
    (hb : bboxT 0 (cleanedBuf 250 10 c) = some (x0, y0, x1, y1)) :
    (y0 < y1 ∧ y1 ≤ c.h ∧ x0 < x1 ∧ x1 ≤ c.w) ∧
    (∀ y x, y < c.h → x < c.w →
      0 < ((cleanedBuf 250 10 c).px y x).a →
      x0 ≤ x ∧ x < x1 ∧ y0 ≤ y ∧ y < y1) ∧
    (rowHas 0 (cleanedBuf 250 10 c) y0 ∧
      rowHas 0 (cleanedBuf 250 10 c) (y1 - 1) ∧
      colHas 0 (cleanedBuf 250 10 c) x0 ∧
      colHas 0 (cleanedBuf 250 10 c) (x1 - 1)) ∧
    ((clean_hex_tile 250 10 c).1.w = (x1 - x0) + 4 ∧
      (clean_hex_tile 250 10 c).1.h = (y1 - y0) + 4 ∧
      ∀ dy dx, dy < y1 - y0 → dx < x1 - x0 →
        (clean_hex_tile 250 10 c).1.px (dy + 2) (dx + 2) =
          (cleanedBuf 250 10 c).px (y0 + dy) (x0 + dx)) ∧
    (∀ y x, y < c.h → x < c.w →
      ((cleanedBuf 250 10 c).px y x).a = 0 →
      (y < y0 ∨ y1 ≤ y ∨ x < x0 ∨ x1 ≤ x) →
      ∀ dy dx, dy < y1 - y0 → dx < x1 - x0 →
        (y0 + dy, x0 + dx) ≠ (y, x)) := by
  have hs := bboxT_some hb
  obtain ⟨hout, _⟩ := clean_some_px 250 10 c x0 y0 x1 y1 hb
  refine ⟨hs.1, hs.2.1, hs.2.2, ⟨?_, ?_, ?_⟩, ?_⟩
  · rw [hout]; rfl
  · rw [hout]; rfl
  · intro dy dx hdy hdx
    rw [hout]
    exact pad2_crop_px _ x0 y0 x1 y1 dy dx hdy hdx
  · intro y x _ _ _ houtside dy dx hdy hdx heq
    obtain ⟨hy, hx⟩ := Prod.mk.injEq _ _ _ _ ▸ heq
    omega

/-- Witness for C1: on the 1x1 grey canvas the box is (0,0,1,1) and the
    single content pixel of the output sits at the 2-pixel inset. -/
theorem claim_C1_witness :
    (clean_hex_tile 250 10 greyImg).1.px (0 + 2) (0 + 2) =
      (cleanedBuf 250 10 greyImg).px (0 + 0) (0 + 0) :=
  (claim_C1 greyImg 0 0 1 1 (by decide)).2.2.2.1.2.2 0 0
    (by decide) (by decide)

/-- C10: clean_hex_tile never alters colour channels — every pixel of
    the output's content region carries the R, G, B of the
    corresponding input pixel under the crop translation, and its alpha
    never exceeds the corresponding input alpha. -/
theorem claim_C10 (c : Img) (x0 y0 x1 y1 : ℕ)
    (hb : bboxT 0 (cleanedBuf 250 10 c) = some (x0, y0, x1, y1)) :
    ∀ dy dx, dy < y1 - y0 → dx < x1 - x0 →
      ((clean_hex_tile 250 10 c).1.px (dy + 2) (dx + 2)).r =
        (c.px (y0 + dy) (x0 + dx)).r ∧
      ((clean_hex_tile 250 10 c).1.px (dy + 2) (dx + 2)).g =
        (c.px (y0 + dy) (x0 + dx)).g ∧
      ((clean_hex_tile 250 10 c).1.px (dy + 2) (dx + 2)).b =
        (c.px (y0 + dy) (x0 + dx)).b ∧
      ((clean_hex_tile 250 10 c).1.px (dy + 2) (dx + 2)).a ≤
        (c.px (y0 + dy) (x0 + dx)).a := by
  intro dy dx hdy hdx
  obtain ⟨hout, _⟩ := clean_some_px 250 10 c x0 y0 x1 y1 hb
  rw [hout, pad2_crop_px _ x0 y0 x1 y1 dy dx hdy hdx]
  exact ⟨cleanedBuf_r 250 10 c _ _, cleanedBuf_g 250 10 c _ _,
    cleanedBuf_b 250 10 c _ _, cleanedBuf_a_le 250 10 c _ _⟩

/-- Witness for C10 on the 1x1 grey canvas. -/
theorem claim_C10_witness :
    ((clean_hex_tile 250 10 greyImg).1.px (0 + 2) (0 + 2)).r =
      (greyImg.px (0 + 0) (0 + 0)).r ∧
    ((clean_hex_tile 250 10 greyImg).1.px (0 + 2) (0 + 2)).g =
      (greyImg.px (0 + 0) (0 + 0)).g ∧
    ((clean_hex_tile 250 10 greyImg).1.px (0 + 2) (0 + 2)).b =
      (greyImg.px (0 + 0) (0 + 0)).b ∧
    ((clean_hex_tile 250 10 greyImg).1.px (0 + 2) (0 + 2)).a ≤
      (greyImg.px (0 + 0) (0 + 0)).a :=
  claim_C10 greyImg 0 0 1 1 (by decide) 0 0 (by decide) (by decide)

/-! ## Claim C3 — snapshot versus running halo semantics -/

theorem brightSum_halo (c : Img) (y x : ℕ) :
    brightSum ((halo c).px y x) = brightSum (c.px y x) := by
  unfold brightSum; rw [halo_r, halo_g, halo_b]

theorem mem_raster {c : Img} {q : ℕ × ℕ} :
    q ∈ raster c ↔ q.1 < c.h ∧ q.2 < c.w := by
  obtain ⟨y, x⟩ := q
  simp [raster, List.mem_flatMap, List.mem_map, List.mem_range]

/-- Transparency indicators read through a buffer that agrees with `c`
    up to completed damping updates match those of `c`. -/
theorem aPad_lt50_inv {c d : Img} (hw : d.w = c.w) (hh : d.h = c.h)
    (hpx : ∀ y x, d.px y x = (halo c).px y x ∨ d.px y x = c.px y x)
    (y x : ℤ) : (aPad d y x < 50 ↔ aPad c y x < 50) := by
  unfold aPad
  rw [hw, hh]
  split
  · rcases hpx y.toNat x.toNat with h | h
    · rw [h]; exact halo_a_lt50 c _ _
    · rw [h]
  · exact Iff.rfl

/-- The damping condition is insensitive to completed damping updates. -/
theorem is_light_edge_inv {c d : Img} (hw : d.w = c.w) (hh : d.h = c.h)
    (hpx : ∀ y x, d.px y x = (halo c).px y x ∨ d.px y x = c.px y x)
    (y x : ℕ) : is_light_edge d y x ↔ is_light_edge c y x := by
  have hnb : neighbors_transparent d y x = neighbors_transparent c y x := by
    unfold neighbors_transparent
    rw [if_congr (aPad_lt50_inv hw hh hpx _ _) rfl rfl,
      if_congr (aPad_lt50_inv hw hh hpx _ _) rfl rfl,
      if_congr (aPad_lt50_inv hw hh hpx _ _) rfl rfl,
      if_congr (aPad_lt50_inv hw hh hpx _ _) rfl rfl]
  have hbs : brightSum (d.px y x) = brightSum (c.px y x) := by
    rcases hpx y x with h | h
    · rw [h]; exact brightSum_halo c y x
    · rw [h]
  have hpos : (0 < (d.px y x).a ↔ 0 < (c.px y x).a) := by
    rcases hpx y x with h | h
    · rw [h]; exact halo_a_pos c y x
    · rw [h]
  unfold is_light_edge
  rw [hnb, hbs]
  exact and_congr_right fun _ => and_congr_right fun _ => hpos

theorem haloStep_w {c d : Img} (hw : d.w = c.w) (q : ℕ × ℕ) :
    (haloStep d q).w = c.w := by
  obtain ⟨qy, qx⟩ := q
  simp only [haloStep]
  split <;> exact hw

theorem haloStep_h {c d : Img} (hh : d.h = c.h) (q : ℕ × ℕ) :
    (haloStep d q).h = c.h := by
  obtain ⟨qy, qx⟩ := q
  simp only [haloStep]
  split <;> exact hh

/-- Fold invariant: after processing `done`, the running buffer carries
    the snapshot-pass result on `done` and the pass input elsewhere. -/
theorem haloRun_go (c : Img) :
    ∀ (S done : List (ℕ × ℕ)) (d : Img),
      d.w = c.w → d.h = c.h →
      (∀ y x, d.px y x =
        if (y, x) ∈ done then (halo c).px y x else c.px y x) →
      ((S.foldl haloStep d).w = c.w ∧ (S.foldl haloStep d).h = c.h ∧
        ∀ y x, (S.foldl haloStep d).px y x =
          if (y, x) ∈ done ++ S then (halo c).px y x else c.px y x) := by
  intro S
  induction S with
  | nil =>
    intro done d hw hh hpx
    simpa using ⟨hw, hh, hpx⟩
  | cons q S ih =>
    obtain ⟨qy, qx⟩ := q
    intro done d hw hh hpx
    have hor : ∀ y x, d.px y x = (halo c).px y x ∨ d.px y x = c.px y x := by
      intro y x
      rw [hpx y x]
      by_cases hd : (y, x) ∈ done
      · rw [if_pos hd]; exact Or.inl rfl
      · rw [if_neg hd]; exact Or.inr rfl
    have hedge := is_light_edge_inv hw hh hor qy qx
    have hstep : ∀ y x, (haloStep d (qy, qx)).px y x =
        if (y, x) ∈ done ++ [(qy, qx)] then (halo c).px y x
        else c.px y x := by
      intro y x
      by_cases hq : y = qy ∧ x = qx
      · obtain ⟨h1, h2⟩ := hq
        subst h1; subst h2
        rw [if_pos (by simp)]
        simp only [haloStep]
        by_cases hle : is_light_edge d y x
        · rw [if_pos hle]
          show (if y = y ∧ x = x then _ else d.px y x) = _
          rw [if_pos ⟨rfl, rfl⟩, halo_px, if_pos (hedge.1 hle)]
          rw [hpx y x]
          by_cases hd : (y, x) ∈ done
          · rw [if_pos hd, halo_px, if_pos (hedge.1 hle)]
            congr 1
            show min (min (c.px y x).a 100) 100 = min (c.px y x).a 100
            omega
          · rw [if_neg hd]
        · rw [if_neg hle, hpx y x, halo_px,
            if_neg (fun hcle => hle (hedge.2 hcle))]
          by_cases hd : (y, x) ∈ done
          · rw [if_pos hd]
          · rw [if_neg hd]
      · have hmem : ((y, x) ∈ done ++ [(qy, qx)]) ↔ ((y, x) ∈ done) := by
          simp only [List.mem_append, List.mem_singleton, Prod.mk.injEq]
          tauto
        have hrhs : (if (y, x) ∈ done ++ [(qy, qx)] then (halo c).px y x
            else c.px y x) =
            if (y, x) ∈ done then (halo c).px y x else c.px y x :=
          if_congr hmem rfl rfl
        rw [hrhs, ← hpx y x]
        simp only [haloStep]
        split
        · show (if y = qy ∧ x = qx then _ else d.px y x) = d.px y x
          rw [if_neg hq]
        · rfl
    have hres := ih (done ++ [(qy, qx)]) (haloStep d (qy, qx))
      (haloStep_w hw _) (haloStep_h hh _) hstep
    simp only [List.foldl_cons]
    refine ⟨hres.1, hres.2.1, fun y x => ?_⟩
    rw [hres.2.2 y x]
    have hm : ((y, x) ∈ done ++ [(qy, qx)] ++ S) ↔
        ((y, x) ∈ done ++ (qy, qx) :: S) := by
      simp [List.mem_append, List.mem_cons, or_assoc]
    exact if_congr hm rfl rfl

/-- C3: the two halo-damping semantics agree — the numpy snapshot pass
    of the source equals, pixel for pixel on the canvas, the running
    pass in which neighbour counts read the alpha array as mutated
    earlier within the same pass (damping to min(alpha,100) can never
    move an alpha across the thresholds 50 or 0, so the sequential
    dependency is immaterial). -/
theorem claim_C3 (c : Img) : ImgEq (halo c) (haloRun c) := by
  have h := haloRun_go c (raster c) [] c rfl rfl (by simp)
  refine ⟨h.1.symm, h.2.1.symm, fun y hy x hx => ?_⟩
  have hp := h.2.2 y x
  rw [List.nil_append] at hp
  unfold haloRun
  rw [hp, if_pos (mem_raster.2 ⟨hy, hx⟩)]

/-- Witness for C3 at a concrete buffer. -/
theorem claim_C3_witness : ImgEq (halo greyImg) (haloRun greyImg) :=
  claim_C3 greyImg

/-! ## Claim C7 — infrastructure: congruences of the pipeline stages -/

theorem aPad_congr {A B : Img} (h : ImgEq A B) (y x : ℤ) :
    aPad A y x = aPad B y x := by
  have e1 := h.1
  have e2 := h.2.1
  unfold aPad
  rw [e1, e2]
  split
  case isTrue hin =>
    rw [h.2.2 y.toNat (by omega) x.toNat (by omega)]
  case isFalse hin => rfl

theorem neighbors_transparent_congr {A B : Img} (h : ImgEq A B)
    (y x : ℕ) :
    neighbors_transparent A y x = neighbors_transparent B y x := by
  unfold neighbors_transparent
  rw [aPad_congr h, aPad_congr h, aPad_congr h, aPad_congr h]

theorem is_light_edge_congr {A B : Img} (h : ImgEq A B) {y x : ℕ}
    (hy : y < A.h) (hx : x < A.w) :
    (is_light_edge A y x ↔ is_light_edge B y x) := by
  unfold is_light_edge
  rw [neighbors_transparent_congr h, h.2.2 y hy x hx]

theorem matte_congr (threshold tolerance : ℕ) {A B : Img}
    (h : ImgEq A B) :
    ImgEq (matte threshold tolerance A) (matte threshold tolerance B) := by
  refine ⟨h.1, h.2.1, fun y hy x hx => ?_⟩
  rw [matte_px, matte_px, h.2.2 y hy x hx]

theorem halo_congr {A B : Img} (h : ImgEq A B) :
    ImgEq (halo A) (halo B) := by
  refine ⟨h.1, h.2.1, fun y hy x hx => ?_⟩
  rw [halo_px, halo_px, if_congr (is_light_edge_congr h hy hx)
    (by rw [h.2.2 y hy x hx]) (h.2.2 y hy x hx)]

theorem rowHas_congr {A B : Img} (h : ImgEq A B) {t y : ℕ}
    (hy : y < A.h) : (rowHas t A y ↔ rowHas t B y) := by
  unfold rowHas
  rw [h.1]
  exact exists_congr fun x => and_congr_right fun hx =>
    by rw [h.2.2 y hy x (h.1.symm ▸ hx)]

theorem colHas_congr {A B : Img} (h : ImgEq A B) {t x : ℕ}
    (hx : x < A.w) : (colHas t A x ↔ colHas t B x) := by
  unfold colHas
  rw [h.2.1]
  exact exists_congr fun y => and_congr_right fun hy =>
    by rw [h.2.2 y (h.2.1.symm ▸ hy) x hx]

theorem bboxT_congr (t : ℕ) {A B : Img} (h : ImgEq A B) :
    bboxT t A = bboxT t B := by
  have hrows : contentRows t A = contentRows t B := by
    ext y
    rw [mem_contentRows, mem_contentRows, h.2.1]
    exact and_congr_right fun hy => rowHas_congr h (h.2.1.symm ▸ hy)
  have hcols : contentCols t A = contentCols t B := by
    ext x
    rw [mem_contentCols, mem_contentCols, h.1]
    exact and_congr_right fun hx => colHas_congr h (h.1.symm ▸ hx)
  unfold bboxT
  rw [hrows, hcols]

theorem crop_congr {A B : Img} (h : ImgEq A B) {x0 y0 x1 y1 : ℕ}
    (hx1 : x1 ≤ A.w) (hy1 : y1 ≤ A.h) :
    ImgEq (crop A x0 y0 x1 y1) (crop B x0 y0 x1 y1) := by
  refine ⟨rfl, rfl, fun y hy x hx => ?_⟩
  have hy' : y < y1 - y0 := hy
  have hx' : x < x1 - x0 := hx
  exact h.2.2 (y0 + y) (by omega) (x0 + x) (by omega)

theorem pad2_congr {A B : Img} (h : ImgEq A B) :
    ImgEq (pad2 A) (pad2 B) := by
  have e1 := h.1
  have e2 := h.2.1
  refine ⟨by unfold pad2; rw [h.1], by unfold pad2; rw [h.2.1],
    fun y hy x hx => ?_⟩
  show (if 2 ≤ y ∧ y < A.h + 2 ∧ 2 ≤ x ∧ x < A.w + 2 then
      A.px (y - 2) (x - 2) else zeroPix) =
    (if 2 ≤ y ∧ y < B.h + 2 ∧ 2 ≤ x ∧ x < B.w + 2 then
      B.px (y - 2) (x - 2) else zeroPix)
  by_cases hcnd : 2 ≤ y ∧ y < A.h + 2 ∧ 2 ≤ x ∧ x < A.w + 2
  · rw [if_pos hcnd, if_pos (by omega)]
    exact h.2.2 (y - 2) (by omega) (x - 2) (by omega)
  · rw [if_neg hcnd, if_neg (by omega)]

theorem cleanedBuf_congr (threshold tolerance : ℕ) {A B : Img}
    (h : ImgEq A B) :
    ImgEq (cleanedBuf threshold tolerance A)
      (cleanedBuf threshold tolerance B) :=
  halo_congr (halo_congr (matte_congr threshold tolerance h))

/-- A halo pass is idempotent: the damping condition is insensitive to
    the damping it causes, and min(min(a,100),100) = min(a,100). -/
theorem halo_halo (c : Img) : ImgEq (halo (halo c)) (halo c) := by
  refine ⟨rfl, rfl, fun y hy x hx => ?_⟩
  have hedge : is_light_edge (halo c) y x ↔ is_light_edge c y x :=
    @is_light_edge_inv c (halo c) rfl rfl (fun _ _ => Or.inl rfl) y x
  rw [halo_px (halo c) y x]
  by_cases hle : is_light_edge c y x
  · rw [if_pos (hedge.2 hle), halo_px, if_pos hle]
    show Pix.mk (c.px y x).r (c.px y x).g (c.px y x).b
        (min (min (c.px y x).a 100) 100) =
      Pix.mk (c.px y x).r (c.px y x).g (c.px y x).b
        (min (c.px y x).a 100)
    exact congrArg (Pix.mk (c.px y x).r (c.px y x).g (c.px y x).b)
      (by omega)
  · rw [if_neg (fun hcle => hle (hedge.1 hcle))]

/-- A pixel the halo pass just damped carries alpha at most 100, and
    the damping condition still holds for it. -/
theorem halo_damped (c : Img) (y x : ℕ)
    (hle : is_light_edge (halo c) y x) : ((halo c).px y x).a ≤ 100 := by
  have hedge : is_light_edge (halo c) y x ↔ is_light_edge c y x :=
    @is_light_edge_inv c (halo c) rfl rfl (fun _ _ => Or.inl rfl) y x
  rw [halo_px, if_pos (hedge.1 hle)]
  show min (c.px y x).a 100 ≤ 100
  omega

/-- The matte step is the identity on a canvas with no matched pixel. -/
theorem matte_id (threshold tolerance : ℕ) (c : Img)
    (hc : ∀ y x, y < c.h → x < c.w →
      ¬ should_be_transparent threshold tolerance (c.px y x)) :
    ImgEq (matte threshold tolerance c) c := by
  refine ⟨rfl, rfl, fun y hy x hx => ?_⟩
  rw [matte_px, if_neg (hc y x hy hx)]

/-- A halo pass is the identity on a canvas none of whose pixels meets
    the damping condition with alpha above 100. -/
theorem halo_id (c : Img)
    (hc : ∀ y x, y < c.h → x < c.w → is_light_edge c y x →
      (c.px y x).a ≤ 100) :
    ImgEq (halo c) c := by
  refine ⟨rfl, rfl, fun y hy x hx => ?_⟩
  rw [halo_px]
  by_cases hle : is_light_edge c y x
  · rw [if_pos hle]
    have := hc y x hy hx hle
    have hmin : min (c.px y x).a 100 = (c.px y x).a := by omega
    rw [hmin]
  · rw [if_neg hle]

/-- On the empty branch, clean_hex_tile yields the cleaned buffer. -/
theorem clean_none_px (threshold tolerance : ℕ) (c : Img)
    (hb : bboxT 0 (cleanedBuf threshold tolerance c) = none) :
    (clean_hex_tile threshold tolerance c).1 =
      cleanedBuf threshold tolerance c := by
  simp only [clean_hex_tile, hb]

/-- Full pixel description of the padded crop. -/
theorem pad2_crop_px_full (cl : Img) (x0 y0 x1 y1 v u : ℕ) :
    (pad2 (crop cl x0 y0 x1 y1)).px v u =
      if 2 ≤ v ∧ v < (y1 - y0) + 2 ∧ 2 ≤ u ∧ u < (x1 - x0) + 2 then
        cl.px (y0 + (v - 2)) (x0 + (u - 2))
      else zeroPix := rfl

/-- The padded crop of a buffer whose content the box encloses has the
    same zero-padded alpha reads as the buffer itself, translated by
    the crop offset (outside the box every alpha is zero on both
    sides). -/
theorem aPad_pad2_crop {cl : Img} {x0 y0 x1 y1 : ℕ}
    (henc : ∀ y x, y < cl.h → x < cl.w → 0 < (cl.px y x).a →
      x0 ≤ x ∧ x < x1 ∧ y0 ≤ y ∧ y < y1)
    (hy1 : y1 ≤ cl.h) (hx1 : x1 ≤ cl.w) (v u : ℤ) :
    aPad (pad2 (crop cl x0 y0 x1 y1)) v u =
      aPad cl (v - 2 + y0) (u - 2 + x0) := by
  have hPh : ((pad2 (crop cl x0 y0 x1 y1)).h : ℤ) = ((y1 - y0) + 4 : ℕ) :=
    rfl
  have hPw : ((pad2 (crop cl x0 y0 x1 y1)).w : ℤ) = ((x1 - x0) + 4 : ℕ) :=
    rfl
  unfold aPad
  rw [hPh, hPw]
  by_cases hin : 2 ≤ v ∧ v < ((y1 - y0 : ℕ) : ℤ) + 2 ∧ 2 ≤ u ∧
      u < ((x1 - x0 : ℕ) : ℤ) + 2
  · rw [if_pos (by push_cast; omega), if_pos (by omega),
      pad2_crop_px_full, if_pos (by omega)]
    have e1 : y0 + (v.toNat - 2) = (v - 2 + y0).toNat := by omega
    have e2 : x0 + (u.toNat - 2) = (u - 2 + x0).toNat := by omega
    rw [e1, e2]
  · have hL : (if 0 ≤ v ∧ v < (((y1 - y0) + 4 : ℕ) : ℤ) ∧ 0 ≤ u ∧
        u < (((x1 - x0) + 4 : ℕ) : ℤ) then
        ((pad2 (crop cl x0 y0 x1 y1)).px v.toNat u.toNat).a else 0) = 0 := by
      split
      · rw [pad2_crop_px_full, if_neg (by
          rename_i hcan
          push_cast at hcan
          omega)]
        rfl
      · rfl
    rw [hL]
    split
    · rename_i hcan
      by_contra hne
      have hpos : 0 < (cl.px (v - 2 + y0).toNat (u - 2 + x0).toNat).a := by
        omega
      have hbox := henc _ _ (by omega) (by omega) hpos
      push_cast at hin
      omega
    · rfl

/-- Neighbour counts inside the content region of the padded crop match
    the original buffer at the translated position. -/
theorem nbT_pad2_crop {cl : Img} {x0 y0 x1 y1 : ℕ}
    (henc : ∀ y x, y < cl.h → x < cl.w → 0 < (cl.px y x).a →
      x0 ≤ x ∧ x < x1 ∧ y0 ≤ y ∧ y < y1)
    (hy1 : y1 ≤ cl.h) (hx1 : x1 ≤ cl.w) {v u : ℕ}
    (hin : 2 ≤ v ∧ v < (y1 - y0) + 2 ∧ 2 ≤ u ∧ u < (x1 - x0) + 2) :
    neighbors_transparent (pad2 (crop cl x0 y0 x1 y1)) v u =
      neighbors_transparent cl (y0 + (v - 2)) (x0 + (u - 2)) := by
  unfold neighbors_transparent
  rw [aPad_pad2_crop henc hy1 hx1, aPad_pad2_crop henc hy1 hx1,
    aPad_pad2_crop henc hy1 hx1, aPad_pad2_crop henc hy1 hx1]
  have e1 : ((v : ℤ) - 1) - 2 + (y0 : ℤ) = ((y0 + (v - 2) : ℕ) : ℤ) - 1 := by
    omega
  have e2 : ((v : ℤ) + 1) - 2 + (y0 : ℤ) = ((y0 + (v - 2) : ℕ) : ℤ) + 1 := by
    omega
  have e3 : ((v : ℤ)) - 2 + (y0 : ℤ) = ((y0 + (v - 2) : ℕ) : ℤ) := by omega
  have e4 : ((u : ℤ) - 1) - 2 + (x0 : ℤ) = ((x0 + (u - 2) : ℕ) : ℤ) - 1 := by
    omega
  have e5 : ((u : ℤ) + 1) - 2 + (x0 : ℤ) = ((x0 + (u - 2) : ℕ) : ℤ) + 1 := by
    omega
  have e6 : ((u : ℤ)) - 2 + (x0 : ℤ) = ((x0 + (u - 2) : ℕ) : ℤ) := by omega
  rw [e1, e2, e3, e4, e5, e6]

/-- The halo pass is the identity on the padded crop of a cleaned
    buffer whose damped pixels already sit at or below alpha 100. -/
theorem halo_id_pad2_crop {cl : Img} {x0 y0 x1 y1 : ℕ}
    (henc : ∀ y x, y < cl.h → x < cl.w → 0 < (cl.px y x).a →
      x0 ≤ x ∧ x < x1 ∧ y0 ≤ y ∧ y < y1)
    (hy1 : y1 ≤ cl.h) (hx1 : x1 ≤ cl.w)
    (hdamp : ∀ y x, y < cl.h → x < cl.w → is_light_edge cl y x →
      (cl.px y x).a ≤ 100) :
    ImgEq (halo (pad2 (crop cl x0 y0 x1 y1)))
      (pad2 (crop cl x0 y0 x1 y1)) := by
  apply halo_id
  intro v u hv hu hle
  by_cases hin : 2 ≤ v ∧ v < (y1 - y0) + 2 ∧ 2 ≤ u ∧ u < (x1 - x0) + 2
  · rw [pad2_crop_px_full, if_pos hin]
    apply hdamp _ _ (by omega) (by omega)
    obtain ⟨hnb, hbs, hpa⟩ := hle
    rw [nbT_pad2_crop henc hy1 hx1 hin] at hnb
    rw [pad2_crop_px_full, if_pos hin] at hbs hpa
    exact ⟨hnb, hbs, hpa⟩
  · exfalso
    have h3 := hle.2.2
    rw [pad2_crop_px_full, if_neg hin] at h3
    exact absurd h3 (by decide)

/-- The cleaned buffer inherits freedom from matte-matched pixels from
    its input (colours are untouched, alpha only ever drops). -/
theorem cleanedBuf_not_matched (threshold tolerance : ℕ) (c : Img)
    (hc : ∀ y x, y < c.h → x < c.w →
      ¬ should_be_transparent threshold tolerance (c.px y x)) :
    ∀ y x, y < c.h → x < c.w →
      ¬ should_be_transparent threshold tolerance
        ((cleanedBuf threshold tolerance c).px y x) := by
  intro y x hy hx hsbt
  obtain ⟨hwl, ha⟩ := hsbt
  apply hc y x hy hx
  refine ⟨?_, lt_of_lt_of_le ha (cleanedBuf_a_le threshold tolerance c y x)⟩
  rw [cleanedBuf_r, cleanedBuf_g, cleanedBuf_b] at hwl
  unfold brightSum at hwl ⊢
  rw [cleanedBuf_r, cleanedBuf_g, cleanedBuf_b] at hwl
  exact hwl

/-- The matte step is the identity on the padded crop of a buffer free
    of matte-matched pixels. -/
theorem matte_id_pad2_crop (threshold tolerance : ℕ) {cl : Img}
    {x0 y0 x1 y1 : ℕ} (hy1 : y1 ≤ cl.h) (hx1 : x1 ≤ cl.w)
    (hcl : ∀ y x, y < cl.h → x < cl.w →
      ¬ should_be_transparent threshold tolerance (cl.px y x)) :
    ImgEq (matte threshold tolerance (pad2 (crop cl x0 y0 x1 y1)))
      (pad2 (crop cl x0 y0 x1 y1)) := by
  apply matte_id
  intro v u hv hu
  rw [pad2_crop_px_full]
  by_cases hin : 2 ≤ v ∧ v < (y1 - y0) + 2 ∧ 2 ≤ u ∧ u < (x1 - x0) + 2
  · rw [if_pos hin]
    exact hcl _ _ (by omega) (by omega)
  · rw [if_neg hin]
    intro hsbt
    exact absurd hsbt.2 (by decide)

/-- The bounding box of the padded crop: the content sits exactly at
    the 2-pixel inset. -/
theorem bboxT_pad2_crop {cl : Img} {x0 y0 x1 y1 : ℕ}
    (hb : bboxT 0 cl = some (x0, y0, x1, y1)) :
    bboxT 0 (pad2 (crop cl x0 y0 x1 y1)) =
      some (2, 2, (x1 - x0) + 2, (y1 - y0) + 2) := by
  obtain ⟨⟨hy01, hy1b, hx01, hx1b⟩, henc, hty0, hty1, htx0, htx1⟩ :=
    bboxT_some hb
  have hrowP : ∀ v, rowHas 0 (pad2 (crop cl x0 y0 x1 y1)) v ↔
      (2 ≤ v ∧ v < (y1 - y0) + 2 ∧ rowHas 0 cl (y0 + (v - 2))) := by
    intro v
    constructor
    · rintro ⟨u, hu, ha⟩
      rw [pad2_crop_px_full] at ha
      by_cases hin : 2 ≤ v ∧ v < (y1 - y0) + 2 ∧ 2 ≤ u ∧
          u < (x1 - x0) + 2
      · rw [if_pos hin] at ha
        exact ⟨hin.1, hin.2.1, x0 + (u - 2), by omega, ha⟩
      · rw [if_neg hin] at ha
        exact absurd ha (by decide)
    · rintro ⟨h2, hlt, x, hx, ha⟩
      have hbox := henc (y0 + (v - 2)) x (by omega) hx ha
      refine ⟨x - x0 + 2, ?_, ?_⟩
      · show x - x0 + 2 < (x1 - x0) + 4
        omega
      · rw [pad2_crop_px_full, if_pos (by omega)]
        have e : x0 + (x - x0 + 2 - 2) = x := by omega
        rw [e]
        exact ha
  have hcolP : ∀ u, colHas 0 (pad2 (crop cl x0 y0 x1 y1)) u ↔
      (2 ≤ u ∧ u < (x1 - x0) + 2 ∧ colHas 0 cl (x0 + (u - 2))) := by
    intro u
    constructor
    · rintro ⟨v, hv, ha⟩
      rw [pad2_crop_px_full] at ha
      by_cases hin : 2 ≤ v ∧ v < (y1 - y0) + 2 ∧ 2 ≤ u ∧
          u < (x1 - x0) + 2
      · rw [if_pos hin] at ha
        exact ⟨hin.2.2.1, hin.2.2.2, y0 + (v - 2), by omega, ha⟩
      · rw [if_neg hin] at ha
        exact absurd ha (by decide)
    · rintro ⟨h2, hlt, y, hy, ha⟩
      have hbox := henc y (x0 + (u - 2)) hy (by omega) ha
      refine ⟨y - y0 + 2, ?_, ?_⟩
      · show y - y0 + 2 < (y1 - y0) + 4
        omega
      · rw [pad2_crop_px_full, if_pos (by omega)]
        have e : y0 + (y - y0 + 2 - 2) = y := by omega
        rw [e]
        exact ha
  have hm2 : (2 : ℕ) ∈ contentRows 0 (pad2 (crop cl x0 y0 x1 y1)) := by
    rw [mem_contentRows]
    exact ⟨by show 2 < (y1 - y0) + 4; omega,
      (hrowP 2).2 ⟨le_refl 2, by omega, hty0⟩⟩
  have hmtop : (y1 - y0) + 1 ∈
      contentRows 0 (pad2 (crop cl x0 y0 x1 y1)) := by
    rw [mem_contentRows]
    refine ⟨by show (y1 - y0) + 1 < (y1 - y0) + 4; omega,
      (hrowP _).2 ⟨by omega, by omega, ?_⟩⟩
    have e : y0 + ((y1 - y0) + 1 - 2) = y1 - 1 := by omega
    rw [e]
    exact hty1
  have hc2 : (2 : ℕ) ∈ contentCols 0 (pad2 (crop cl x0 y0 x1 y1)) := by
    rw [mem_contentCols]
    exact ⟨by show 2 < (x1 - x0) + 4; omega,
      (hcolP 2).2 ⟨le_refl 2, by omega, htx0⟩⟩
  have hctop : (x1 - x0) + 1 ∈
      contentCols 0 (pad2 (crop cl x0 y0 x1 y1)) := by
    rw [mem_contentCols]
    refine ⟨by show (x1 - x0) + 1 < (x1 - x0) + 4; omega,
      (hcolP _).2 ⟨by omega, by omega, ?_⟩⟩
    have e : x0 + ((x1 - x0) + 1 - 2) = x1 - 1 := by omega
    rw [e]
    exact htx1
  have hRne : (contentRows 0 (pad2 (crop cl x0 y0 x1 y1))).Nonempty :=
    ⟨2, hm2⟩
  have hCne : (contentCols 0 (pad2 (crop cl x0 y0 x1 y1))).Nonempty :=
    ⟨2, hc2⟩
  have hminR : (contentRows 0 (pad2 (crop cl x0 y0 x1 y1))).min' hRne
      = 2 :=
    le_antisymm (Finset.min'_le _ _ hm2)
      (Finset.le_min' _ _ _ fun v hv =>
        ((hrowP v).1 (mem_contentRows.1 hv).2).1)
  have hmaxR : (contentRows 0 (pad2 (crop cl x0 y0 x1 y1))).max' hRne
      = (y1 - y0) + 1 :=
    le_antisymm
      (Finset.max'_le _ _ _ fun v hv => by
        have := ((hrowP v).1 (mem_contentRows.1 hv).2).2.1
        omega)
      (Finset.le_max' _ _ hmtop)
  have hminC : (contentCols 0 (pad2 (crop cl x0 y0 x1 y1))).min' hCne
      = 2 :=
    le_antisymm (Finset.min'_le _ _ hc2)
      (Finset.le_min' _ _ _ fun u hu =>
        ((hcolP u).1 (mem_contentCols.1 hu).2).1)
  have hmaxC : (contentCols 0 (pad2 (crop cl x0 y0 x1 y1))).max' hCne
      = (x1 - x0) + 1 :=
    le_antisymm
      (Finset.max'_le _ _ _ fun u hu => by
        have := ((hcolP u).1 (mem_contentCols.1 hu).2).2.1
        omega)
      (Finset.le_max' _ _ hctop)
  unfold bboxT
  rw [dif_pos hRne, dif_pos hCne]
  simp only [Option.some.injEq, Prod.mk.injEq]
  exact ⟨hminC, hminR, by rw [hmaxC], by rw [hmaxR]⟩

/-- C7: clean_hex_tile is idempotent on its own output for a canvas
    already free of near-white opaque pixels — clean(clean(x)) equals
    clean(x) pixel for pixel, dimensions included. -/
theorem claim_C7 (c : Img)
    (hc : ∀ y x, y < c.h → x < c.w →
      ¬ should_be_transparent 250 10 (c.px y x)) :
    ImgEq ((clean_hex_tile 250 10 (clean_hex_tile 250 10 c).1).1)
      ((clean_hex_tile 250 10 c).1) := by
  have hdamp : ∀ y x, y < (cleanedBuf 250 10 c).h →
      x < (cleanedBuf 250 10 c).w →
      is_light_edge (cleanedBuf 250 10 c) y x →
      ((cleanedBuf 250 10 c).px y x).a ≤ 100 :=
    fun y x _ _ hle => halo_damped (halo (matte 250 10 c)) y x hle
  have hclfree := cleanedBuf_not_matched 250 10 c hc
  cases hbb : bboxT 0 (cleanedBuf 250 10 c) with
  | none =>
    have h1 := clean_none_px 250 10 c hbb
    rw [h1]
    have hz := bboxT_none_iff.1 hbb
    have hmz : ImgEq (matte 250 10 (cleanedBuf 250 10 c))
        (cleanedBuf 250 10 c) :=
      matte_id _ _ _ fun y x hy hx hsbt => absurd hsbt.2 (by
        have := hz y x hy hx; omega)
    have hhz : ImgEq (halo (cleanedBuf 250 10 c)) (cleanedBuf 250 10 c) :=
      halo_id _ fun y x hy hx _ => by have := hz y x hy hx; omega
    have hcl2 : ImgEq (cleanedBuf 250 10 (cleanedBuf 250 10 c))
        (cleanedBuf 250 10 c) :=
      ((halo_congr (halo_congr hmz)).trans ((halo_congr hhz).trans hhz))
    have hbb2 : bboxT 0 (cleanedBuf 250 10 (cleanedBuf 250 10 c)) = none :=
      (bboxT_congr 0 hcl2).trans hbb
    rw [clean_none_px 250 10 _ hbb2]
    exact hcl2
  | some b =>
    obtain ⟨x0, y0, x1, y1⟩ := b
    obtain ⟨⟨hy01, hy1b, hx01, hx1b⟩, henc, htights⟩ := bboxT_some hbb
    have h1 := (clean_some_px 250 10 c x0 y0 x1 y1 hbb).1
    rw [h1]
    have hmP : ImgEq
        (matte 250 10 (pad2 (crop (cleanedBuf 250 10 c) x0 y0 x1 y1)))
        (pad2 (crop (cleanedBuf 250 10 c) x0 y0 x1 y1)) :=
      matte_id_pad2_crop 250 10 hy1b hx1b hclfree
    have hhP := halo_id_pad2_crop henc hy1b hx1b hdamp
    have hclP : ImgEq
        (cleanedBuf 250 10
          (pad2 (crop (cleanedBuf 250 10 c) x0 y0 x1 y1)))
        (pad2 (crop (cleanedBuf 250 10 c) x0 y0 x1 y1)) :=
      ((halo_congr (halo_congr hmP)).trans ((halo_congr hhP).trans hhP))
    have hbbP : bboxT 0
        (cleanedBuf 250 10
          (pad2 (crop (cleanedBuf 250 10 c) x0 y0 x1 y1))) =
        some (2, 2, (x1 - x0) + 2, (y1 - y0) + 2) :=
      (bboxT_congr 0 hclP).trans (bboxT_pad2_crop hbb)
    have h2 := (clean_some_px 250 10 _ 2 2 ((x1 - x0) + 2)
      ((y1 - y0) + 2) hbbP).1
    rw [h2]
    have hcrop1 : ImgEq
        (crop (cleanedBuf 250 10
          (pad2 (crop (cleanedBuf 250 10 c) x0 y0 x1 y1)))
          2 2 ((x1 - x0) + 2) ((y1 - y0) + 2))
        (crop (pad2 (crop (cleanedBuf 250 10 c) x0 y0 x1 y1))
          2 2 ((x1 - x0) + 2) ((y1 - y0) + 2)) :=
      crop_congr hclP (by show (x1 - x0) + 2 ≤ (x1 - x0) + 4; omega)
        (by show (y1 - y0) + 2 ≤ (y1 - y0) + 4; omega)
    have hcrop2 : ImgEq
        (crop (pad2 (crop (cleanedBuf 250 10 c) x0 y0 x1 y1))
          2 2 ((x1 - x0) + 2) ((y1 - y0) + 2))
        (crop (cleanedBuf 250 10 c) x0 y0 x1 y1) := by
      refine ⟨rfl, rfl, fun v hv u hu => ?_⟩
      have hv' : v < (y1 - y0) + 2 - 2 := hv
      have hu' : u < (x1 - x0) + 2 - 2 := hu
      show (pad2 (crop (cleanedBuf 250 10 c) x0 y0 x1 y1)).px
          (2 + v) (2 + u) = (cleanedBuf 250 10 c).px (y0 + v) (x0 + u)
      rw [pad2_crop_px_full, if_pos (by omega)]
      have e1 : y0 + (2 + v - 2) = y0 + v := by omega
      have e2 : x0 + (2 + u - 2) = x0 + u := by omega
      rw [e1, e2]
    exact pad2_congr (hcrop1.trans hcrop2)

/-- Witness for C7 on the 1x1 grey canvas (no near-white opaque
    pixels). -/
theorem claim_C7_witness :
    ImgEq ((clean_hex_tile 250 10 (clean_hex_tile 250 10 greyImg).1).1)
      ((clean_hex_tile 250 10 greyImg).1) :=
  claim_C7 greyImg (by
    intro y x hy hx
    have hy1 : y < 1 := hy
    have hx1 : x < 1 := hx
    have hy0 : y = 0 := by omega
    have hx0 : x = 0 := by omega
    subst hy0; subst hx0
    decide)

/-! ## Claim C2 — tile numbering of the grid extractors -/

theorem range1_concat (n : ℕ) :
    List.range' 1 (n + 1) = List.range' 1 n ++ [n + 1] := by
  rw [List.range'_concat]
  norm_num [Nat.add_comm]

/-- Fold invariant of extract_hex_tiles: emitted indices stay the
    consecutive run 1..count, and the counter equals the count. -/
theorem extract_go (c : Img) :
    ∀ (cells : List (ℕ × ℕ)) (acc : List (ℕ × Img) × ℕ),
      acc.1.map Prod.fst = List.range' 1 acc.2 →
      acc.2 = acc.1.length →
      ((cells.foldl (extractStep c) acc).1.map Prod.fst =
        List.range' 1 (cells.foldl (extractStep c) acc).2 ∧
        (cells.foldl (extractStep c) acc).2 =
          (cells.foldl (extractStep c) acc).1.length) := by
  intro cells
  induction cells with
  | nil => intro acc h1 h2; exact ⟨h1, h2⟩
  | cons q qs ih =>
    intro acc h1 h2
    simp only [List.foldl_cons]
    refine ih (extractStep c acc q) ?_ ?_
    · rcases hb : bboxT 20 (cellImg c (c.w / 2) (c.h / 2) q.1 q.2)
        with _ | b
      · unfold extractStep
        rw [hb]
        exact h1
      · obtain ⟨x0, y0, x1, y1⟩ := b
        unfold extractStep
        rw [hb]
        show (acc.1 ++ [(acc.2 + 1,
          crop (cellImg c (c.w / 2) (c.h / 2) q.1 q.2) x0 y0 x1 y1)]).map
            Prod.fst = List.range' 1 (acc.2 + 1)
        rw [List.map_append, h1, range1_concat]
        rfl
    · rcases hb : bboxT 20 (cellImg c (c.w / 2) (c.h / 2) q.1 q.2)
        with _ | b
      · unfold extractStep
        rw [hb]
        exact h2
      · obtain ⟨x0, y0, x1, y1⟩ := b
        unfold extractStep
        rw [hb]
        show acc.2 + 1 = (acc.1 ++ [(acc.2 + 1,
          crop (cellImg c (c.w / 2) (c.h / 2) q.1 q.2) x0 y0 x1 y1)]).length
        rw [List.length_append, h2]
        rfl

/-- Fold invariant of process_texture_image: every visited cell
    consumes an index, so an emitted tile carries the 1-based position
    of its cell in visitation order. -/
theorem tex_go (threshold tolerance : ℕ) (c : Img) :
    ∀ (cells : List (ℕ × ℕ)) (ts : List (ℕ × Img)) (k : ℕ),
      (cells.foldl (texStep threshold tolerance c) (ts, k)).1.map
          Prod.fst =
        ts.map Prod.fst ++
          emittedIdx (cellEmits threshold tolerance c) cells k := by
  intro cells
  induction cells with
  | nil =>
    intro ts k
    simp [emittedIdx]
  | cons q qs ih =>
    intro ts k
    simp only [List.foldl_cons]
    rcases hb : bboxT 0 (cleanedBuf threshold tolerance
        (cellImg c (c.w / 2) (c.h / 2) q.1 q.2)) with _ | b
    · have hE : cellEmits threshold tolerance c q = false := by
        unfold cellEmits
        rw [hb]
        rfl
      have hstep : texStep threshold tolerance c (ts, k) q = (ts, k + 1) := by
        unfold texStep
        rw [hb]
      have hun : emittedIdx (cellEmits threshold tolerance c) (q :: qs) k =
          if cellEmits threshold tolerance c q = true then
            (k + 1) :: emittedIdx (cellEmits threshold tolerance c) qs (k + 1)
          else emittedIdx (cellEmits threshold tolerance c) qs (k + 1) := rfl
      rw [hstep, ih ts (k + 1), hun, hE]
      simp
    · obtain ⟨x0, y0, x1, y1⟩ := b
      have hE : cellEmits threshold tolerance c q = true := by
        unfold cellEmits
        rw [hb]
        rfl
      have hstep : texStep threshold tolerance c (ts, k) q =
          (ts ++ [(k + 1, pad2 (crop (cleanedBuf threshold tolerance
            (cellImg c (c.w / 2) (c.h / 2) q.1 q.2)) x0 y0 x1 y1))],
            k + 1) := by
        unfold texStep
        rw [hb]
      have hun : emittedIdx (cellEmits threshold tolerance c) (q :: qs) k =
          if cellEmits threshold tolerance c q = true then
            (k + 1) :: emittedIdx (cellEmits threshold tolerance c) qs (k + 1)
          else emittedIdx (cellEmits threshold tolerance c) qs (k + 1) := rfl
      rw [hstep, ih, hun, hE, List.map_append]
      simp

/-- Counterexample to C2 as stated: on a 2x2 canvas whose only content
    sits in the second visited cell, process_texture_image numbers its
    single emitted tile 2, not 1 — the skipped first cell consumed an
    index. -/
theorem claim_C2_counterexample :
    ¬ ((process_texture_image 250 10 tex2Img).map Prod.fst =
      List.range' 1 (process_texture_image 250 10 tex2Img).length) := by
  decide

/-- C2 amended: extract_hex_tiles numbers emitted tiles consecutively
    from 1 in row-major visitation order (skipped cells consume no
    index), but process_texture_image advances the index on every
    visited cell, so each emitted tile carries the 1-based row-major
    position of its cell and the numbering can have gaps. -/
theorem claim_C2 :
    (∀ c : Img, (extract_hex_tiles c).map Prod.fst =
      List.range' 1 (extract_hex_tiles c).length) ∧
    (∀ threshold tolerance : ℕ, ∀ c : Img,
      (process_texture_image threshold tolerance c).map Prod.fst =
        emittedIdx (cellEmits threshold tolerance c) gridCells 0) := by
  constructor
  · intro c
    unfold extract_hex_tiles
    split
    · have h := extract_go c gridCells ([], 0) (by simp) (by simp)
      rw [h.1, h.2]
    · rfl
  · intro threshold tolerance c
    unfold process_texture_image
    simpa using tex_go threshold tolerance c gridCells [] 0

/-! ## Claims C9 and C5 — FrameThinner background pixels and shrink 0 -/

/-- C9: thin_hex_frame preserves dimensions, maps every background
    pixel (alpha 0) to the fully transparent pixel at the same
    coordinates, and in particular sends an all-transparent buffer to
    an all-transparent buffer. -/
theorem claim_C9 (c : Img) (s : ℕ) :
    (thin_hex_frame c s).w = c.w ∧ (thin_hex_frame c s).h = c.h ∧
    (∀ i j, i < c.h → j < c.w → (c.px i j).a = 0 →
      (thin_hex_frame c s).px i j = zeroPix) ∧
    ((∀ i j, i < c.h → j < c.w → (c.px i j).a = 0) →
      ∀ i j, i < c.h → j < c.w → (thin_hex_frame c s).px i j = zeroPix) := by
  refine ⟨rfl, rfl, ?_, ?_⟩
  · intro i j _ _ ha
    show thinPixel c s i j = zeroPix
    unfold thinPixel
    rw [if_neg (by omega)]
  · intro hall i j hi hj
    show thinPixel c s i j = zeroPix
    unfold thinPixel
    rw [if_neg (by have := hall i j hi hj; omega)]

/-- Witness for C9 on the all-transparent 1x1 canvas. -/
theorem claim_C9_witness :
    (thin_hex_frame clearImg 3).px 0 0 = zeroPix :=
  (claim_C9 clearImg 3).2.2.1 0 0 (by decide) (by decide) (by decide)

theorem toU8_natCast (n : ℕ) (hn : n ≤ 255) : toU8 (n : ℝ) = n := by
  unfold toU8
  rw [min_eq_right (by exact_mod_cast hn), max_eq_right (by positivity),
    Int.floor_natCast]
  omega

theorem clipPix_eq (p : Pix) (h1 : p.r ≤ 255) (h2 : p.g ≤ 255)
    (h3 : p.b ≤ 255) (h4 : p.a ≤ 255) : clipPix p = p := by
  unfold clipPix
  rw [toU8_natCast p.r h1, toU8_natCast p.g h2, toU8_natCast p.b h3,
    toU8_natCast p.a h4]

/-- A foreground pixel has positive (squared) depth: the nearest
    background cell, if any, is a different cell, and the
    no-background default is positive. -/
theorem edtSq_pos (c : Img) (i j : ℕ) (ha : 0 < (c.px i j).a) :
    0 < edtSq c i j := by
  unfold edtSq
  cases hmin : ((bgCells c).map fun q => sqDist i j q.1 q.2).min? with
  | none => exact Nat.succ_pos _
  | some m =>
    show 0 < m
    have hmem : m ∈ (bgCells c).map fun q => sqDist i j q.1 q.2 :=
      List.min?_mem (fun a b => min_choice a b) hmin
    rw [List.mem_map] at hmem
    obtain ⟨q, hq, he⟩ := hmem
    unfold bgCells at hq
    rw [List.mem_filter] at hq
    have hqa : (c.px q.1 q.2).a = 0 := of_decide_eq_true hq.2
    have hne : ¬ (q.1 = i ∧ q.2 = j) := by
      rintro ⟨e1, e2⟩
      rw [e1, e2] at hqa
      omega
    rw [← he]
    unfold sqDist
    by_cases he1 : q.1 = i
    · have he2 : q.2 ≠ j := fun he2 => hne ⟨he1, he2⟩
      have hz : ((j : ℤ) - q.2) ≠ 0 := by omega
      have hsq : 0 < ((j : ℤ) - q.2) ^ 2 := pow_two_pos_of_ne_zero hz
      have hnn : 0 ≤ ((i : ℤ) - q.1) ^ 2 := sq_nonneg _
      omega
    · have hz : ((i : ℤ) - q.1) ≠ 0 := by omega
      have hsq : 0 < ((i : ℤ) - q.1) ^ 2 := pow_two_pos_of_ne_zero hz
      have hnn : 0 ≤ ((j : ℤ) - q.2) ^ 2 := sq_nonneg _
      omega

theorem dfe_pos (c : Img) (i j : ℕ) (ha : 0 < (c.px i j).a) :
    0 < dfe c i j := by
  unfold dfe
  rw [Real.sqrt_pos]
  exact_mod_cast edtSq_pos c i j ha

/-- Counterexample to C5 as stated: with shrinkPixels 0, a transparent
    pixel carrying a nonzero colour channel is zeroed by the output
    allocation (np.zeros_like), so the transform is not the identity
    buffer-wide. -/
theorem claim_C5_counterexample :
    (thin_hex_frame bgColorImg 0).px 0 0 ≠ bgColorImg.px 0 0 := by
  have h : thinPixel bgColorImg 0 0 0 = zeroPix := by
    unfold thinPixel
    rw [if_neg (by decide)]
  show thinPixel bgColorImg 0 0 0 ≠ bgColorImg.px 0 0
  rw [h]
  decide

/-- C5 amended: with shrinkPixels 0 the transform is the identity on
    every foreground pixel (depth is positive, so the whole shape is
    interior fill), while each background pixel becomes (0,0,0,0) —
    colour channels of transparent pixels are not preserved. -/
theorem claim_C5 (c : Img) (hv : Valid8 c) (i j : ℕ) (hi : i < c.h)
    (hj : j < c.w) :
    (0 < (c.px i j).a → (thin_hex_frame c 0).px i j = c.px i j) ∧
    ((c.px i j).a = 0 → (thin_hex_frame c 0).px i j = zeroPix) := by
  obtain ⟨h1, h2, h3, h4⟩ := hv i j hi hj
  constructor
  · intro ha
    show thinPixel c 0 i j = c.px i j
    unfold thinPixel
    rw [if_pos ha]
    by_cases hcen : distC c i j < 1 / 1000000
    · rw [if_pos hcen]
      exact clipPix_eq _ h1 h2 h3 h4
    · rw [if_neg hcen, if_pos (by simpa using dfe_pos c i j ha)]
      exact clipPix_eq _ h1 h2 h3 h4
  · intro ha
    show thinPixel c 0 i j = zeroPix
    unfold thinPixel
    rw [if_neg (by omega)]

/-- Witness for the amended C5 on the 1x1 opaque grey canvas. -/
theorem claim_C5_witness :
    (0 < (greyImg.px 0 0).a →
      (thin_hex_frame greyImg 0).px 0 0 = greyImg.px 0 0) ∧
    ((greyImg.px 0 0).a = 0 →
      (thin_hex_frame greyImg 0).px 0 0 = zeroPix) :=
  claim_C5 greyImg
    (fun y x hy hx => by
      have hy1 : y < 1 := hy
      have hx1 : x < 1 := hx
      have hy0 : y = 0 := by omega
      have hx0 : x = 0 := by omega
      subst hy0; subst hx0
      decide)
    0 0 (by decide) (by decide)

/-! ## Claim C4 — border-band resampling guard -/

/-- C4 amended: for a border-band foreground pixel away from the
    canvas centre, the output is the quantised bilinear sample of the
    input at the computed source position whenever that position lies
    in the half-open region [0, H-1) x [0, W-1) (strict at the
    right/bottom), and is fully transparent whenever it does not. -/
theorem claim_C4 (c : Img) (s i j : ℕ) (hi : i < c.h) (hj : j < c.w)
    (ha : 0 < (c.px i j).a)
    (hcen : ¬ (distC c i j < 1 / 1000000))
    (hband : dfe c i j ≤ (s : ℝ)) :
    ((0 ≤ srcY c s i j ∧ srcY c s i j < (c.h : ℝ) - 1 ∧
        0 ≤ srcX c s i j ∧ srcX c s i j < (c.w : ℝ) - 1) →
      (thin_hex_frame c s).px i j =
        bilinPix c (srcY c s i j) (srcX c s i j)) ∧
    (¬ (0 ≤ srcY c s i j ∧ srcY c s i j < (c.h : ℝ) - 1 ∧
        0 ≤ srcX c s i j ∧ srcX c s i j < (c.w : ℝ) - 1) →
      (thin_hex_frame c s).px i j = zeroPix) := by
  constructor
  · intro hr
    show thinPixel c s i j = _
    unfold thinPixel
    rw [if_pos ha, if_neg hcen, if_neg (not_lt.2 hband), if_pos hr]
  · intro hr
    show thinPixel c s i j = _
    unfold thinPixel
    rw [if_pos ha, if_neg hcen, if_neg (not_lt.2 hband), if_neg hr]

theorem b4_distC : distC b4 0 1 = 1 := by
  have hw : ((b4.w : ℕ) : ℝ) = 2 := by norm_num [show b4.w = 2 from rfl]
  have hh : ((b4.h : ℕ) : ℝ) = 2 := by norm_num [show b4.h = 2 from rfl]
  unfold distC dX dY cX cY
  rw [hw, hh]
  norm_num [Real.sqrt_one]

theorem b4_dfe : dfe b4 0 1 = 1 := by
  unfold dfe
  rw [show edtSq b4 0 1 = 1 from by decide]
  norm_num [Real.sqrt_one]

theorem b4_disp : displacement b4 1 0 1 = 0 := by
  unfold displacement
  rw [b4_dfe]
  norm_num

theorem b4_srcY : srcY b4 1 0 1 = 0 := by
  have hh : ((b4.h : ℕ) : ℝ) = 2 := by norm_num [show b4.h = 2 from rfl]
  unfold srcY dY cY
  rw [b4_distC, b4_disp, if_pos (by norm_num : (0 : ℝ) < 1), hh]
  norm_num

theorem b4_srcX : srcX b4 1 0 1 = 1 := by
  have hw : ((b4.w : ℕ) : ℝ) = 2 := by norm_num [show b4.w = 2 from rfl]
  unfold srcX dX cX
  rw [b4_distC, b4_disp, if_pos (by norm_num : (0 : ℝ) < 1), hw]
  norm_num

theorem b4_thin : (thin_hex_frame b4 1).px 0 1 = zeroPix := by
  have hreg : ¬ (0 ≤ srcY b4 1 0 1 ∧
      srcY b4 1 0 1 < ((b4.h : ℕ) : ℝ) - 1 ∧ 0 ≤ srcX b4 1 0 1 ∧
      srcX b4 1 0 1 < ((b4.w : ℕ) : ℝ) - 1) := by
    intro hr
    have hx := hr.2.2.2
    rw [b4_srcX] at hx
    norm_num [show b4.w = 2 from rfl] at hx
  show thinPixel b4 1 0 1 = zeroPix
  unfold thinPixel
  rw [if_pos (by decide : 0 < (b4.px 0 1).a),
    if_neg (show ¬ (distC b4 0 1 < 1 / 1000000) by
      rw [b4_distC]; norm_num),
    if_neg (show ¬ (((1 : ℕ) : ℝ) < dfe b4 0 1) by
      rw [b4_dfe]; norm_num),
    if_neg hreg]

theorem b4_bilin_a : bilin b4 0 1 3 = 255 := by
  have e1 : getC (b4.px 0 1) 3 = 255 := by decide
  have e2 : getC (b4.px 0 2) 3 = 0 := by decide
  have e3 : getC (b4.px 1 1) 3 = 0 := by decide
  have e4 : getC (b4.px 1 2) 3 = 0 := by decide
  unfold bilin
  rw [Int.floor_zero, Int.floor_one]
  norm_num [Int.toNat_zero, Int.toNat_one, e1, e2, e3, e4]

/-- Counterexample to C4 as stated: pixel (0,1) of b4 with shrink 1 is
    a border-band foreground pixel away from the centre whose source
    position (0,1) lies inside the closed region [0, W-1] x [0, H-1],
    yet the output pixel is fully transparent and differs from the
    bilinear sample there — the code's guard is strict
    (source < W-1, source < H-1), not the closed region. -/
theorem claim_C4_counterexample :
    0 < (b4.px 0 1).a ∧
    ¬ (distC b4 0 1 < 1 / 1000000) ∧
    (0 < dfe b4 0 1 ∧ dfe b4 0 1 ≤ ((1 : ℕ) : ℝ)) ∧
    (0 ≤ srcY b4 1 0 1 ∧ srcY b4 1 0 1 ≤ ((b4.h : ℕ) : ℝ) - 1 ∧
      0 ≤ srcX b4 1 0 1 ∧ srcX b4 1 0 1 ≤ ((b4.w : ℕ) : ℝ) - 1) ∧
    (thin_hex_frame b4 1).px 0 1 = zeroPix ∧
    bilinPix b4 (srcY b4 1 0 1) (srcX b4 1 0 1) ≠ zeroPix := by
  have hA : (bilinPix b4 0 1).a = 255 := by
    show toU8 (bilin b4 0 1 3) = 255
    rw [b4_bilin_a]
    unfold toU8
    rw [min_self, max_eq_right (by norm_num : (0 : ℝ) ≤ 255),
      show (255 : ℝ) = ((255 : ℕ) : ℝ) by norm_num, Int.floor_natCast]
    omega
  refine ⟨by decide, ?_, ⟨?_, ?_⟩, ⟨?_, ?_, ?_, ?_⟩, b4_thin, ?_⟩
  · rw [b4_distC]; norm_num
  · rw [b4_dfe]; norm_num
  · rw [b4_dfe]; norm_num
  · rw [b4_srcY]
  · rw [b4_srcY]; norm_num [show b4.h = 2 from rfl]
  · rw [b4_srcX]; norm_num
  · rw [b4_srcX]; norm_num [show b4.w = 2 from rfl]
  · rw [b4_srcY, b4_srcX]
    intro h
    have hA0 := congrArg Pix.a h
    rw [hA] at hA0
    exact absurd hA0 (by decide)

/-- Witness for the amended C4 at the same concrete border-band pixel:
    the source position falls outside the half-open region, so the
    output is fully transparent. -/
theorem claim_C4_witness :
    (thin_hex_frame b4 1).px 0 1 = zeroPix :=
  (claim_C4 b4 1 0 1 (by decide) (by decide) (by decide)
    (by rw [b4_distC]; norm_num)
    (by rw [b4_dfe]; norm_num)).2
    (by
      intro hr
      have hx := hr.2.2.2
      rw [b4_srcX] at hx
      norm_num [show b4.w = 2 from rfl] at hx)

end Spirit
